import Mathlib

set_option maxRecDepth 40000
set_option maxHeartbeats 4000000

/-!
# Verification of the `lruish` cache

Shallow embedding of the Go package `lruish` (files `lruish.go` and the
package README).  The engine `lruish` keeps a map from keys to heap-allocated
`lruElem` objects and a fixed-size ring of pointers to the same objects.
Pointers are modelled by indices (`Nat`) into an append-only arena `entries`:
`items` and `ring` both store arena indices, so mutating an `Elem` through one
path is visible through the other, exactly as with Go pointers.
All Go `int` arithmetic is modelled on `Int`; every `%` and `/` in the source
acts on non-negative operands, where Go's truncated division and Lean's
euclidean division agree.
-/

namespace Lruish

/-- One cached key/value pair (`lruElem` in the source): the stored `value`,
its `key`, and `index`, the entry's current slot in the ring. -/
structure Elem (K V : Type) where
  value : V
  key : K
  index : Int
deriving Repr, DecidableEq

/-- The cache engine (`lruish` in the source): capacity `size`, the key index
`items` (a map from key to entry), the `head` cursor and the `ring` of slots.
`entries` is the arena of heap objects; `items` and `ring` hold arena indices,
modelling the shared `*lruElem` pointers of the source. -/
structure LRU (K V : Type) where
  size : Int
  items : List (K × Nat)
  head : Int
  ring : Array (Option Nat)
  entries : Array (Elem K V)
deriving Repr

/-- Go map lookup `c.items[key]`. -/
def mapLookup {K : Type} [DecidableEq K] (l : List (K × Nat)) (k : K) : Option Nat :=
  match l with
  | [] => none
  | p :: rest => if p.1 = k then some p.2 else mapLookup rest k

/-- Go map deletion `delete(c.items, key)`. -/
def mapErase {K : Type} [DecidableEq K] (l : List (K × Nat)) (k : K) : List (K × Nat) :=
  l.filter (fun p => decide (p.1 ≠ k))

/-- Go map assignment `c.items[key] = ent`. -/
def mapInsert {K : Type} [DecidableEq K] (l : List (K × Nat)) (k : K) (v : Nat) :
    List (K × Nat) :=
  (k, v) :: mapErase l k

/-- Read `c.ring[i]` (always called with `0 ≤ i < len(ring)` in the source). -/
def ringGet (r : Array (Option Nat)) (i : Int) : Option Nat :=
  r.getD i.toNat none

/-- Write `c.ring[i] = v` (always in bounds in the source). -/
def ringSet (r : Array (Option Nat)) (i : Int) (v : Option Nat) : Array (Option Nat) :=
  r.setD i.toNat v

/-- Mutation `e.index = i` of the arena object `eid`. -/
def setIndex {K V : Type} (es : Array (Elem K V)) (eid : Nat) (i : Int) :
    Array (Elem K V) :=
  es.modify eid (fun e => { e with index := i })

/-- Mutation `e.value = v` of the arena object `eid`. -/
def setValue {K V : Type} (es : Array (Elem K V)) (eid : Nat) (v : V) :
    Array (Elem K V) :=
  es.modify eid (fun e => { e with value := v })

/-- `NewUnsynched` (lruish.go:97-109): rejects a non-positive size, otherwise
returns the empty cache with `head = 0` and a ring of `size` empty slots. -/
def NewUnsynched (K V : Type) [DecidableEq K] (size : Int) :
    Except String (LRU K V) :=
  if size ≤ 0 then .error "must provide a positive size"
  else .ok { size := size, items := [], head := 0,
             ring := Array.mkArray size.toNat none, entries := #[] }

/-- `promote` (lruish.go:151-168): halve the entry's distance from the head
cursor, swapping it with whatever occupies the target slot. -/
def promote {K V : Type} (c : LRU K V) (eid : Nat) : LRU K V :=
  match c.entries.get? eid with
  | none => c
  | some ent =>
    let curIndex := ent.index
    let position0 := curIndex - c.head
    let position := if position0 < 0 then position0 + c.size else position0
    let newIndex := (c.head + position / 2) % c.size
    -- Update the downgraded item, if non-nil (could be a hole in the ring)
    let entries1 :=
      match ringGet c.ring newIndex with
      | some did => setIndex c.entries did curIndex
      | none => c.entries
    -- Update the promoted item
    let entries2 := setIndex entries1 eid newIndex
    -- Swap them
    let a := ringGet c.ring curIndex
    let b := ringGet c.ring newIndex
    { c with entries := entries2,
             ring := ringSet (ringSet c.ring curIndex b) newIndex a }

/-- `Get` (lruish.go:170-176): lookup with promotion. -/
def Get {K V : Type} [DecidableEq K] (c : LRU K V) (key : K) :
    Option V × LRU K V :=
  match mapLookup c.items key with
  | some eid =>
    let c1 := promote c eid
    match c1.entries.get? eid with
    | some e => (some e.value, c1)
    | none => (none, c1)
  | none => (none, c)

/-- `Add` (lruish.go:179-204): update-and-promote an existing key (returning
`false`), or move the head counter-clockwise, evict whatever lives in the slot
behind the new head, and write the new entry at the new head (returning
`true`). -/
def Add {K V : Type} [DecidableEq K] (c : LRU K V) (key : K) (value : V) :
    Bool × LRU K V :=
  match mapLookup c.items key with
  | some eid =>
    let c1 := promote c eid
    (false, { c1 with entries := setValue c1.entries eid value })
  | none =>
    -- new head position is h-1
    let h0 := c.head - 1
    let h := if h0 < 0 then h0 + c.size else h0
    -- new tail position is h-2
    let t0 := h - 1
    let tailIndex := if t0 < 0 then t0 + c.size else t0
    let items1 :=
      match ringGet c.ring tailIndex with
      | some did =>
        match c.entries.get? did with
        | some toDelete => mapErase c.items toDelete.key
        | none => c.items
      | none => c.items
    let eid := c.entries.size
    (true, { c with head := h,
                    items := mapInsert items1 key eid,
                    ring := ringSet c.ring h (some eid),
                    entries := c.entries.push ⟨value, key, h⟩ })

/-- `Contains` (lruish.go:208-211): pure membership test; the receiver is
returned unchanged to make the absence of side effects explicit. -/
def Contains {K V : Type} [DecidableEq K] (c : LRU K V) (key : K) :
    Bool × LRU K V :=
  ((mapLookup c.items key).isSome, c)

/-- `Peek` (lruish.go:215-220): lookup without promotion; the receiver is
returned unchanged. -/
def Peek {K V : Type} [DecidableEq K] (c : LRU K V) (key : K) :
    Option V × LRU K V :=
  match mapLookup c.items key with
  | some eid =>
    match c.entries.get? eid with
    | some e => (some e.value, c)
    | none => (none, c)
  | none => (none, c)

/-- `ContainsOrAdd` on the engine (lruish.go:128-134). -/
def ContainsOrAdd {K V : Type} [DecidableEq K] (c : LRU K V) (key : K) (value : V) :
    (Bool × Bool) × LRU K V :=
  if (Contains c key).1 then ((true, false), c)
  else
    let r := Add c key value
    ((false, r.1), r.2)

/-- `Len` (lruish.go:147-149): size of the key index. -/
def Len {K V : Type} (c : LRU K V) : Nat :=
  c.items.length

/-- `Keys` (lruish.go:137-145): the keys of the index, unordered. -/
def Keys {K V : Type} (c : LRU K V) : List K :=
  c.items.map Prod.fst

/-- `Remove` (lruish.go:231-240): delete from the index and punch a hole in
the ring. -/
def Remove {K V : Type} [DecidableEq K] (c : LRU K V) (key : K) :
    Bool × LRU K V :=
  match mapLookup c.items key with
  | some eid =>
    match c.entries.get? eid with
    | some ent =>
      (true, { c with items := mapErase c.items key,
                      ring := ringSet c.ring ent.index none })
    | none => (true, { c with items := mapErase c.items key })
  | none => (false, c)

/-- `Purge` (lruish.go:223-227): clear index and ring, reset the head. -/
def Purge {K V : Type} (c : LRU K V) : LRU K V :=
  { c with items := [], ring := Array.mkArray c.size.toNat none, head := 0 }

/-- `SynchedLRU.ContainsOrAdd` (lruish.go:82-86).  The body of the source
method is `return c.ContainsOrAdd(key, value)` — a recursive call to the
wrapper itself rather than a delegation to `c.lru`, so the call never reaches
the engine.  The recursion is modelled with explicit fuel: `none` means the
call has not produced a result after `fuel` recursive steps. -/
def SynchedContainsOrAdd {K V : Type} [DecidableEq K] (fuel : Nat) (c : LRU K V)
    (key : K) (value : V) : Option ((Bool × Bool) × LRU K V) :=
  match fuel with
  | 0 => none
  | Nat.succ f => SynchedContainsOrAdd f c key value

/-- Fold a list of insertions over the cache. -/
def addAll {K V : Type} [DecidableEq K] (c : LRU K V) (ps : List (K × V)) : LRU K V :=
  match ps with
  | [] => c
  | p :: rest => addAll (Add c p.1 p.2).2 rest

/-- Iterate `Get` on one key `n` times, keeping only the state. -/
def getN {K V : Type} [DecidableEq K] (c : LRU K V) (key : K) : Nat → LRU K V
  | 0 => c
  | Nat.succ n => getN (Get c key).2 key n

/-- The freshly constructed cache of capacity `n` (the success value of
`NewUnsynched`). -/
def mkLRU (K V : Type) [DecidableEq K] (n : Int) : LRU K V :=
  { size := n, items := [], head := 0,
    ring := Array.mkArray n.toNat none, entries := #[] }

theorem newUnsynched_pos {K V : Type} [DecidableEq K] {n : Int} (h : 0 < n) :
    NewUnsynched K V n = .ok (mkLRU K V n) := by
  simp [NewUnsynched, mkLRU, not_le.mpr h]

/-- Offset of arena entry `eid` from the head cursor, walking
counter-clockwise: the "distance" of the README's promotion example. -/
def distOf {K V : Type} (c : LRU K V) (eid : Nat) : Int :=
  match c.entries.get? eid with
  | some e => (e.index - c.head) % c.size
  | none => 0

/-- Cross-reference soundness of one index pair `(k, eid)`: the arena entry
exists, carries the key `k`, and its `index` field names a ring slot in range
that holds exactly this entry. -/
def entryOK {K V : Type} [DecidableEq K] (c : LRU K V) (k : K) (eid : Nat) : Bool :=
  match c.entries.get? eid with
  | some e =>
    decide (e.key = k) && decide (0 ≤ e.index) && decide (e.index < c.size) &&
      decide (ringGet c.ring e.index = some eid)
  | none => false

/-- Well-formedness of a cache state: positive capacity, ring of exactly
`size` slots, head cursor in range, no duplicate keys in the index, the
cross-reference invariant for every index pair, and (for capacity at least
two) no live entry in the slot just behind the head — the slot the next
insertion will overwrite. -/
def wf {K V : Type} [DecidableEq K] (c : LRU K V) : Prop :=
  0 < c.size ∧ c.ring.size = c.size.toNat ∧ 0 ≤ c.head ∧ c.head < c.size ∧
    (c.items.map Prod.fst).Nodup ∧
    (∀ p ∈ c.items, entryOK c p.1 p.2 = true) ∧
    (2 ≤ c.size → ∀ p ∈ c.items, distOf c p.2 ≠ c.size - 1)

instance {K V : Type} [DecidableEq K] (c : LRU K V) : Decidable (wf c) :=
  decidable_of_iff (0 < c.size ∧ c.ring.size = c.size.toNat ∧ 0 ≤ c.head ∧
    c.head < c.size ∧ (c.items.map Prod.fst).Nodup ∧
    (∀ p ∈ c.items, entryOK c p.1 p.2 = true) ∧
    (2 ≤ c.size → ∀ p ∈ c.items, distOf c p.2 ≠ c.size - 1)) Iff.rfl

theorem entryOK_iff {K V : Type} [DecidableEq K] {c : LRU K V} {k : K} {eid : Nat} :
    entryOK c k eid = true ↔
      ∃ e, c.entries.get? eid = some e ∧ e.key = k ∧ 0 ≤ e.index ∧
        e.index < c.size ∧ ringGet c.ring e.index = some eid := by
  unfold entryOK
  cases h : c.entries.get? eid <;> simp [and_assoc]

theorem getElem?_setD {α : Type} (r : Array α) (i : Nat) (v : α) (j : Nat) :
    (r.setD i v)[j]? = if i = j ∧ i < r.size then some v else r[j]? := by
  unfold Array.setD
  split
  · rename_i hlt
    by_cases hij : i = j
    · subst hij
      rw [if_pos ⟨rfl, hlt⟩]
      exact Array.getElem?_set_eq r ⟨i, hlt⟩ v
    · rw [Array.getElem?_set_ne _ _ _ hij]
      simp [hij]
  · rename_i hlt
    rw [if_neg (fun hc => hlt hc.2)]

theorem size_ringSet (r : Array (Option Nat)) (i : Int) (v : Option Nat) :
    (ringSet r i v).size = r.size := by
  simp [ringSet, Array.size_setD]

theorem ringGet_ringSet_self {r : Array (Option Nat)} {i : Int} {v : Option Nat}
    (h : i.toNat < r.size) : ringGet (ringSet r i v) i = v := by
  simp [ringGet, ringSet, Array.getD_eq_get?, getElem?_setD, h]

theorem ringGet_ringSet_other {r : Array (Option Nat)} {i j : Int} {v : Option Nat}
    (h : i.toNat ≠ j.toNat) : ringGet (ringSet r j v) i = ringGet r i := by
  simp only [ringGet, ringSet, Array.getD_eq_get?, getElem?_setD]
  rw [if_neg (fun hc => h hc.1.symm)]

theorem size_setIndex {K V : Type} (es : Array (Elem K V)) (eid : Nat) (i : Int) :
    (setIndex es eid i).size = es.size := by
  simp [setIndex, Array.size_modify]

theorem get?_setIndex_self {K V : Type} (es : Array (Elem K V)) (eid : Nat) (i : Int) :
    (setIndex es eid i).get? eid = (es.get? eid).map (fun e => { e with index := i }) := by
  simp [setIndex, Array.get?_eq_getElem?, Array.getElem?_modify]

theorem get?_setIndex_other {K V : Type} {es : Array (Elem K V)} {eid eid' : Nat}
    {i : Int} (h : eid ≠ eid') :
    (setIndex es eid i).get? eid' = es.get? eid' := by
  simp [setIndex, Array.get?_eq_getElem?, Array.getElem?_modify, h]

theorem size_setValue {K V : Type} (es : Array (Elem K V)) (eid : Nat) (v : V) :
    (setValue es eid v).size = es.size := by
  simp [setValue, Array.size_modify]

theorem get?_setValue_self {K V : Type} (es : Array (Elem K V)) (eid : Nat) (v : V) :
    (setValue es eid v).get? eid = (es.get? eid).map (fun e => { e with value := v }) := by
  simp [setValue, Array.get?_eq_getElem?, Array.getElem?_modify]

theorem get?_setValue_other {K V : Type} {es : Array (Elem K V)} {eid eid' : Nat}
    {v : V} (h : eid ≠ eid') :
    (setValue es eid v).get? eid' = es.get? eid' := by
  simp [setValue, Array.get?_eq_getElem?, Array.getElem?_modify, h]

theorem get?_push_lt {K V : Type} {es : Array (Elem K V)} {e : Elem K V} {i : Nat}
    (h : i ≠ es.size) : (es.push e).get? i = es.get? i := by
  simp [Array.get?_eq_getElem?, Array.getElem?_push, h]

theorem get?_push_self {K V : Type} (es : Array (Elem K V)) (e : Elem K V) :
    (es.push e).get? es.size = some e := by
  simp [Array.get?_eq_getElem?, Array.getElem?_push]

theorem mapLookup_mem {K : Type} [DecidableEq K] {l : List (K × Nat)} {k : K}
    {eid : Nat} (h : mapLookup l k = some eid) : (k, eid) ∈ l := by
  induction l with
  | nil => simp [mapLookup] at h
  | cons p rest ih =>
    by_cases hk : p.1 = k
    · simp only [mapLookup, if_pos hk] at h
      have hp : p = (k, eid) := by
        obtain ⟨a, b⟩ := p
        simp only [Prod.mk.injEq]
        exact ⟨hk, Option.some.inj h⟩
      exact List.mem_cons.mpr (Or.inl hp.symm)
    · simp only [mapLookup, hk, if_neg, not_false_iff] at h
      exact List.mem_cons_of_mem _ (ih h)

theorem mapLookup_eq_none_iff {K : Type} [DecidableEq K] {l : List (K × Nat)} {k : K} :
    mapLookup l k = none ↔ ∀ p ∈ l, p.1 ≠ k := by
  induction l with
  | nil => simp [mapLookup]
  | cons p rest ih =>
    by_cases hk : p.1 = k <;> simp [mapLookup, hk, ih]

theorem mem_mapErase {K : Type} [DecidableEq K] {l : List (K × Nat)} {k : K}
    {p : K × Nat} : p ∈ mapErase l k ↔ p ∈ l ∧ p.1 ≠ k := by
  simp [mapErase, List.mem_filter]

theorem mapErase_keys_sublist {K : Type} [DecidableEq K] (l : List (K × Nat)) (k : K) :
    ((mapErase l k).map Prod.fst).Sublist (l.map Prod.fst) :=
  List.Sublist.map Prod.fst (List.filter_sublist l)

theorem mem_mapInsert {K : Type} [DecidableEq K] {l : List (K × Nat)} {k : K}
    {v : Nat} {p : K × Nat} :
    p ∈ mapInsert l k v ↔ p = (k, v) ∨ (p ∈ l ∧ p.1 ≠ k) := by
  simp [mapInsert, mem_mapErase]

theorem nodup_keys_mapInsert {K : Type} [DecidableEq K] {l : List (K × Nat)}
    (hn : (l.map Prod.fst).Nodup) (k : K) (v : Nat) :
    ((mapInsert l k v).map Prod.fst).Nodup := by
  simp only [mapInsert, List.map_cons, List.nodup_cons]
  refine ⟨?_, (mapErase_keys_sublist l k).nodup hn⟩
  intro hmem
  obtain ⟨p, hp, hpk⟩ := List.mem_map.mp hmem
  exact (mem_mapErase.mp hp).2 hpk

theorem mapLookup_of_nodup {K : Type} [DecidableEq K] {l : List (K × Nat)}
    (hn : (l.map Prod.fst).Nodup) {k : K} {eid : Nat} (h : (k, eid) ∈ l) :
    mapLookup l k = some eid := by
  induction l with
  | nil => simp at h
  | cons p rest ih =>
    simp only [List.map_cons, List.nodup_cons] at hn
    rcases List.mem_cons.mp h with heq | hmem
    · simp [mapLookup, ← heq]
    · have hk : k ∈ rest.map Prod.fst := List.mem_map_of_mem Prod.fst hmem
      have hne : p.1 ≠ k := fun he => hn.1 (he ▸ hk)
      simp only [mapLookup, hne, if_neg, not_false_iff]
      exact ih hn.2 hmem

theorem wrap_eq_emod {a n : Int} (hn : 0 < n) (h1 : -n ≤ a) (h2 : a < n) :
    (if a < 0 then a + n else a) = a % n := by
  split
  · rename_i hneg
    have h3 : (a + n) % n = a + n := Int.emod_eq_of_lt (by omega) (by omega)
    have h4 : (a + n * 1) % n = a % n := Int.add_mul_emod_self_left a n 1
    rw [mul_one] at h4
    rw [← h4, h3]
  · exact (Int.emod_eq_of_lt (by omega) h2).symm

/-- The source computation of `promote` (lruish.go:151-168), reduced to its
components: given a well-placed entry `ent` at arena id `eid`, with `ν` the
target slot `(head + ((cur − head) mod size) / 2) mod size`, promotion keeps
`items`, `head`, `size` and all array sizes; moves the entry to slot `ν`
(updating its `index` field); re-points any displaced entry to the vacated
slot; and leaves every other slot and entry untouched. -/
theorem promote_spec {K V : Type} [DecidableEq K] {c : LRU K V} {eid : Nat}
    {ent : Elem K V} {ν : Int}
    (h_ent : c.entries.get? eid = some ent)
    (hsize : 0 < c.size) (hring : c.ring.size = c.size.toNat)
    (hhead0 : 0 ≤ c.head) (hhead1 : c.head < c.size)
    (hcur0 : 0 ≤ ent.index) (hcur1 : ent.index < c.size)
    (hpin : ringGet c.ring ent.index = some eid)
    (hν : ν = (c.head + ((ent.index - c.head) % c.size) / 2) % c.size) :
    (promote c eid).items = c.items ∧
    (promote c eid).head = c.head ∧
    (promote c eid).size = c.size ∧
    (promote c eid).ring.size = c.ring.size ∧
    (promote c eid).entries.size = c.entries.size ∧
    (promote c eid).entries.get? eid = some { ent with index := ν } ∧
    ringGet (promote c eid).ring ν = some eid ∧
    (∀ j : Int, j.toNat ≠ ent.index.toNat → j.toNat ≠ ν.toNat →
      ringGet (promote c eid).ring j = ringGet c.ring j) ∧
    (ν.toNat ≠ ent.index.toNat →
      ringGet (promote c eid).ring ent.index = ringGet c.ring ν) ∧
    (∀ did, ringGet c.ring ν = some did → did ≠ eid →
      (promote c eid).entries.get? did =
        (c.entries.get? did).map (fun e => { e with index := ent.index })) ∧
    (∀ e', e' ≠ eid → (∀ did, ringGet c.ring ν = some did → e' ≠ did) →
      (promote c eid).entries.get? e' = c.entries.get? e') := by
  have hd0 : 0 ≤ (ent.index - c.head) % c.size := Int.emod_nonneg _ (by omega)
  have hd1 : (ent.index - c.head) % c.size < c.size := Int.emod_lt_of_pos _ hsize
  have hq0 : 0 ≤ ((ent.index - c.head) % c.size) / 2 := Int.ediv_nonneg hd0 (by omega)
  have hν0 : 0 ≤ ν := hν ▸ Int.emod_nonneg _ (by omega)
  have hν1 : ν < c.size := hν ▸ Int.emod_lt_of_pos _ hsize
  have hwrap : (if ent.index - c.head < 0 then ent.index - c.head + c.size
      else ent.index - c.head) = (ent.index - c.head) % c.size :=
    wrap_eq_emod hsize (by omega) (by omega)
  have hred : promote c eid =
      { c with
        entries := setIndex
          (match ringGet c.ring ν with
           | some did => setIndex c.entries did ent.index
           | none => c.entries) eid ν,
        ring := ringSet (ringSet c.ring ent.index (ringGet c.ring ν)) ν (some eid) } := by
    unfold promote
    rw [h_ent]
    simp only [hwrap, ← hν, hpin]
  have hcurNat : ent.index.toNat < c.ring.size := by omega
  have hνNat : ν.toNat < c.ring.size := by omega
  have hνNat2 : ν.toNat < (ringSet c.ring ent.index (ringGet c.ring ν)).size := by
    rw [size_ringSet]; exact hνNat
  refine ⟨by rw [hred], by rw [hred], by rw [hred], ?_, ?_, ?_, ?_, ?_, ?_, ?_, ?_⟩
  · rw [hred]
    simp [size_ringSet]
  · rw [hred]
    simp only
    rw [size_setIndex]
    cases hb : ringGet c.ring ν <;> simp [size_setIndex]
  · rw [hred]
    simp only
    rw [get?_setIndex_self]
    cases hb : ringGet c.ring ν with
    | none => rw [h_ent]; rfl
    | some did =>
      by_cases hde : did = eid
      · subst hde
        rw [get?_setIndex_self, h_ent]
        rfl
      · rw [get?_setIndex_other hde, h_ent]
        rfl
  · rw [hred]
    simp only
    exact ringGet_ringSet_self hνNat2
  · intro j hj1 hj2
    rw [hred]
    simp only
    rw [ringGet_ringSet_other hj2, ringGet_ringSet_other hj1]
  · intro hne
    rw [hred]
    simp only
    rw [ringGet_ringSet_other (Ne.symm hne), ringGet_ringSet_self hcurNat]
  · intro did hdid hde
    rw [hred]
    simp only [hdid]
    rw [get?_setIndex_other (fun h => hde h.symm)]
    rw [get?_setIndex_self]
  · intro e' he1 he2
    rw [hred]
    simp only
    rw [get?_setIndex_other (fun h => he1 h.symm)]
    cases hb : ringGet c.ring ν with
    | none => rfl
    | some did => rw [get?_setIndex_other (fun h => (he2 did hb) h.symm)]

theorem ringGet_congr {r : Array (Option Nat)} {i j : Int} (h : i.toNat = j.toNat) :
    ringGet r i = ringGet r j := by
  simp [ringGet, h]

theorem emod_shift {h q n : Int} (hn : 0 < n) (hq0 : 0 ≤ q) (hq1 : q < n) :
    ((h + q) % n - h) % n = q := by
  have h1 : ((h + q) % n - h) % n = ((h + q) - h) % n := by
    conv_lhs => rw [Int.sub_emod]
    conv_rhs => rw [Int.sub_emod]
    rw [Int.emod_emod_of_dvd _ dvd_rfl]
  rw [h1, add_sub_cancel_left, Int.emod_eq_of_lt hq0 hq1]

/-- Promotion of a live entry preserves well-formedness, leaves the key
index, head cursor and sizes unchanged, and exactly halves the promoted
entry's distance from the head. -/
theorem wf_promote {K V : Type} [DecidableEq K] {c : LRU K V} {k : K} {eid : Nat}
    (hwf : wf c) (hl : mapLookup c.items k = some eid) :
    wf (promote c eid) ∧
    (promote c eid).items = c.items ∧
    (promote c eid).head = c.head ∧
    (promote c eid).size = c.size ∧
    (promote c eid).entries.size = c.entries.size ∧
    distOf (promote c eid) eid = distOf c eid / 2 := by
  obtain ⟨hsz, hrs, hh0, hh1, hnd, hcross, htail⟩ := hwf
  have hmem : (k, eid) ∈ c.items := mapLookup_mem hl
  obtain ⟨ent, h_ent, hkey, hc0, hc1, hpin⟩ := entryOK_iff.mp (hcross (k, eid) hmem)
  dsimp only at h_ent hkey hpin
  set d : Int := (ent.index - c.head) % c.size with hddef
  set ν : Int := (c.head + d / 2) % c.size with hνdef
  have hd0 : 0 ≤ d := Int.emod_nonneg _ (by omega)
  have hd1 : d < c.size := Int.emod_lt_of_pos _ hsz
  have hq0 : 0 ≤ d / 2 := Int.ediv_nonneg hd0 (by omega)
  have hq1 : d / 2 < c.size := lt_of_le_of_lt (Int.ediv_le_self 2 hd0) hd1
  have hν0 : 0 ≤ ν := Int.emod_nonneg _ (by omega)
  have hν1 : ν < c.size := Int.emod_lt_of_pos _ hsz
  obtain ⟨pitems, phead, psize, prsize, pesize, pself, pνring, pring_other, pswap,
      pdid, pent_other⟩ :=
    promote_spec h_ent hsz hrs hh0 hh1 hc0 hc1 hpin hνdef
  have hdeq : distOf c eid = d := by
    unfold distOf
    rw [h_ent]
  have hdist_eid : distOf (promote c eid) eid = d / 2 := by
    unfold distOf
    rw [pself, phead, psize]
    exact emod_shift hsz hq0 hq1
  have hdtail : 2 ≤ c.size → d ≠ c.size - 1 := by
    intro h2
    have ht := htail h2 (k, eid) hmem
    dsimp only at ht
    rwa [hdeq] at ht
  have main : ∀ p ∈ c.items, entryOK (promote c eid) p.1 p.2 = true ∧
      (2 ≤ c.size → distOf (promote c eid) p.2 ≠ c.size - 1) := by
    intro p hp
    obtain ⟨e, h_e, hkey', he0, he1, hpin'⟩ := entryOK_iff.mp (hcross _ hp)
    by_cases hpe : p.2 = eid
    · subst hpe
      have hee : e = ent := by rw [h_e] at h_ent; exact Option.some.inj h_ent
      subst hee
      constructor
      · refine entryOK_iff.mpr ⟨{ e with index := ν }, pself, hkey', ?_, ?_, ?_⟩
        · exact hν0
        · rw [psize]; exact hν1
        · exact pνring
      · intro h2
        rw [hdist_eid]
        have := hdtail h2
        omega
    · cases hb : ringGet c.ring ν with
      | some did =>
        by_cases hpd : p.2 = did
        · subst hpd
          have hde : p.2 ≠ eid := hpe
          have hνc : ν.toNat ≠ ent.index.toNat := by
            intro hc
            have : ν = ent.index := by omega
            rw [this, hpin] at hb
            exact hde (Option.some.inj hb).symm
          have hent' : (promote c eid).entries.get? p.2 =
              some { e with index := ent.index } := by
            rw [pdid p.2 hb hde, h_e]
            rfl
          constructor
          · refine entryOK_iff.mpr ⟨{ e with index := ent.index }, hent', hkey', hc0, ?_, ?_⟩
            · rw [psize]; exact hc1
            · rw [pswap hνc, hb]
          · intro h2
            have hdd : distOf (promote c eid) p.2 = d := by
              unfold distOf
              rw [hent', phead, psize]
            rw [hdd]
            exact hdtail h2
        · have hother : (promote c eid).entries.get? p.2 = c.entries.get? p.2 :=
            pent_other p.2 hpe (fun did' hd' => by
              rw [hb] at hd'
              exact (Option.some.inj hd') ▸ hpd)
          have hj1 : e.index.toNat ≠ ent.index.toNat := by
            intro hc
            rw [ringGet_congr hc, hpin] at hpin'
            exact hpe (Option.some.inj hpin').symm
          have hj2 : e.index.toNat ≠ ν.toNat := by
            intro hc
            rw [ringGet_congr hc, hb] at hpin'
            exact hpd (Option.some.inj hpin').symm
          constructor
          · refine entryOK_iff.mpr ⟨e, hother ▸ h_e, hkey', he0, ?_, ?_⟩
            · rw [psize]; exact he1
            · rw [pring_other e.index hj1 hj2]; exact hpin'
          · intro h2
            have hdd : distOf (promote c eid) p.2 = distOf c p.2 := by
              unfold distOf
              rw [hother, phead, psize]
            rw [hdd]
            exact htail h2 _ hp
      | none =>
        have hother : (promote c eid).entries.get? p.2 = c.entries.get? p.2 :=
          pent_other p.2 hpe (fun did' hd' => by rw [hb] at hd'; exact absurd hd' (by simp))
        have hj1 : e.index.toNat ≠ ent.index.toNat := by
          intro hc
          rw [ringGet_congr hc, hpin] at hpin'
          exact hpe (Option.some.inj hpin').symm
        have hj2 : e.index.toNat ≠ ν.toNat := by
          intro hc
          rw [ringGet_congr hc, hb] at hpin'
          exact Option.noConfusion hpin'
        constructor
        · refine entryOK_iff.mpr ⟨e, hother ▸ h_e, hkey', he0, ?_, ?_⟩
          · rw [psize]; exact he1
          · rw [pring_other e.index hj1 hj2]; exact hpin'
        · intro h2
          have hdd : distOf (promote c eid) p.2 = distOf c p.2 := by
            unfold distOf
            rw [hother, phead, psize]
          rw [hdd]
          exact htail h2 _ hp
  refine ⟨⟨?_, ?_, ?_, ?_, ?_, ?_, ?_⟩, pitems, phead, psize, pesize, ?_⟩
  · rw [psize]; exact hsz
  · rw [prsize, psize]; exact hrs
  · rw [phead]; exact hh0
  · rw [phead, psize]; exact hh1
  · rw [pitems]; exact hnd
  · intro p hp
    rw [pitems] at hp
    exact (main p hp).1
  · intro h2 p hp
    rw [pitems] at hp
    rw [psize] at h2 ⊢
    exact (main p hp).2 h2
  · rw [hdist_eid, hdeq]

theorem emod_sub_eq_wrap {a b n : Int} (hn : 0 < n) (h1 : 0 ≤ a) (h2 : a < n)
    (h3 : 0 ≤ b) (h4 : b < n) :
    (a - b) % n = if a - b < 0 then a - b + n else a - b :=
  (wrap_eq_emod hn (by omega) (by omega)).symm

/-- Overwriting the `value` field of an arena entry (the update branch of
`Add`) preserves well-formedness. -/
theorem wf_setValue {K V : Type} [DecidableEq K] {c : LRU K V} (hwf : wf c)
    (eid : Nat) (v : V) :
    wf { c with entries := setValue c.entries eid v } := by
  obtain ⟨hsz, hrs, hh0, hh1, hnd, hcross, htail⟩ := hwf
  have hent : ∀ e', (setValue c.entries eid v).get? e' =
      if e' = eid
      then (c.entries.get? e').map (fun e => { e with value := v })
      else c.entries.get? e' := by
    intro e'
    by_cases he : e' = eid
    · subst he
      rw [if_pos rfl, get?_setValue_self]
    · rw [if_neg he, get?_setValue_other (fun hx => he hx.symm)]
  refine ⟨hsz, hrs, hh0, hh1, hnd, ?_, ?_⟩
  · intro p hp
    obtain ⟨e, h_e, hkey, he0, he1, hpin⟩ := entryOK_iff.mp (hcross p hp)
    refine entryOK_iff.mpr ?_
    by_cases he : p.2 = eid
    · subst he
      exact ⟨{ e with value := v }, by rw [hent, if_pos rfl, h_e]; rfl, hkey, he0, he1, hpin⟩
    · exact ⟨e, by rw [hent, if_neg he]; exact h_e, hkey, he0, he1, hpin⟩
  · intro h2 p hp
    have hd : distOf { c with entries := setValue c.entries eid v } p.2 = distOf c p.2 := by
      unfold distOf
      rw [hent]
      by_cases he : p.2 = eid
      · rw [if_pos he]
        cases c.entries.get? p.2 <;> rfl
      · rw [if_neg he]
    rw [hd]
    exact htail h2 p hp

theorem get?_of_size_le {α : Type} {es : Array α} {i : Nat} (h : es.size ≤ i) :
    es.get? i = none := by
  rw [Array.get?_eq_getElem?]
  exact Array.getElem?_size_le es i h

theorem lt_size_of_get?_some {α : Type} {es : Array α} {i : Nat} {e : α}
    (h : es.get? i = some e) : i < es.size := by
  by_contra hc
  rw [get?_of_size_le (by omega)] at h
  exact Option.noConfusion h

/-- Insertion of a key preserves well-formedness (`Add`, both branches). -/
theorem wf_Add {K V : Type} [DecidableEq K] {c : LRU K V} (hwf : wf c) (k : K) (v : V) :
    wf (Add c k v).2 := by
  cases hlk : mapLookup c.items k with
  | some eid =>
    have hred : (Add c k v).2 =
        { promote c eid with entries := setValue (promote c eid).entries eid v } := by
      simp only [Add, hlk]
    rw [hred]
    exact wf_setValue (wf_promote hwf hlk).1 eid v
  | none =>
    obtain ⟨hsz, hrs, hh0, hh1, hnd, hcross, htail⟩ := hwf
    set h : Int := if c.head - 1 < 0 then c.head - 1 + c.size else c.head - 1 with hh
    set t : Int := if h - 1 < 0 then h - 1 + c.size else h - 1 with ht
    set items1 : List (K × Nat) :=
      (match ringGet c.ring t with
       | some did =>
         (match c.entries.get? did with
          | some toDelete => mapErase c.items toDelete.key
          | none => c.items)
       | none => c.items) with hitems1
    have hred : (Add c k v).2 =
        { c with head := h,
                 items := mapInsert items1 k c.entries.size,
                 ring := ringSet c.ring h (some c.entries.size),
                 entries := c.entries.push ⟨v, k, h⟩ } := by
      simp only [Add, hlk]
    have hb1 : -c.size ≤ c.head - 1 := by omega
    have hb2 : c.head - 1 < c.size := by omega
    have hhe : h = (c.head - 1) % c.size := by
      rw [hh]
      exact wrap_eq_emod hsz hb1 hb2
    have hh0' : 0 ≤ h := hhe ▸ Int.emod_nonneg _ (by omega)
    have hh1' : h < c.size := hhe ▸ Int.emod_lt_of_pos _ hsz
    have hh2 : h = c.head - 1 ∨ h = c.head - 1 + c.size := by
      rw [hh]
      split
      · exact Or.inr rfl
      · exact Or.inl rfl
    have ht2 : t = h - 1 ∨ t = h - 1 + c.size := by
      rw [ht]
      split
      · exact Or.inr rfl
      · exact Or.inl rfl
    have ht0 : 0 ≤ t := by rcases ht2 with h' | h' <;> omega
    have ht1 : t < c.size := by rcases ht2 with h' | h' <;> omega
    have hitems1_cases :
        (ringGet c.ring t = none ∧ items1 = c.items) ∨
        (∃ did, ringGet c.ring t = some did ∧ c.entries.get? did = none ∧
          items1 = c.items) ∨
        (∃ did toDelete, ringGet c.ring t = some did ∧
          c.entries.get? did = some toDelete ∧
          items1 = mapErase c.items toDelete.key) := by
      rw [hitems1]
      cases hbt : ringGet c.ring t with
      | none => exact Or.inl ⟨rfl, rfl⟩
      | some did =>
        cases hbd : c.entries.get? did with
        | none => exact Or.inr (Or.inl ⟨did, rfl, hbd, by simp only [hbd]⟩)
        | some toDelete =>
          exact Or.inr (Or.inr ⟨did, toDelete, rfl, hbd, by simp only [hbd]⟩)
    have hsubset : ∀ p ∈ items1, p ∈ c.items := by
      rcases hitems1_cases with ⟨_, hc1⟩ | ⟨_, _, _, hc1⟩ | ⟨_, _, _, _, hc1⟩ <;>
        rw [hc1] <;> intro p hp
      · exact hp
      · exact hp
      · exact (mem_mapErase.mp hp).1
    have hsurv_t : ∀ p ∈ items1, ∀ e, c.entries.get? p.2 = some e → e.index ≠ t := by
      intro p hp e h_e hidx
      have hpc : p ∈ c.items := hsubset p hp
      obtain ⟨e', h_e', hkey', he0', he1', hpin'⟩ := entryOK_iff.mp (hcross p hpc)
      have hee : e' = e := by
        rw [h_e] at h_e'
        exact Option.some.inj h_e'.symm
      subst hee
      have hrt : ringGet c.ring t = some p.2 := by
        rw [← hidx]
        exact hpin'
      rcases hitems1_cases with ⟨hn, _⟩ | ⟨did, hbt, hbd, _⟩ | ⟨did, toDelete, hbt, hbd, hc1⟩
      · rw [hn] at hrt
        exact Option.noConfusion hrt
      · rw [hbt] at hrt
        have : did = p.2 := Option.some.inj hrt
        rw [this, h_e] at hbd
        exact Option.noConfusion hbd
      · rw [hbt] at hrt
        have hdp : did = p.2 := Option.some.inj hrt
        rw [hdp, h_e] at hbd
        have htd : toDelete = e' := Option.some.inj hbd.symm
        rw [hc1] at hp
        have := (mem_mapErase.mp hp).2
        rw [htd, hkey'] at this
        exact this rfl
    have hsurv_h : ∀ p ∈ items1, ∀ e, c.entries.get? p.2 = some e → e.index ≠ h := by
      intro p hp e h_e hidx
      have hpc : p ∈ c.items := hsubset p hp
      obtain ⟨e', h_e', hkey', he0', he1', hpin'⟩ := entryOK_iff.mp (hcross p hpc)
      have hee : e' = e := by
        rw [h_e] at h_e'
        exact Option.some.inj h_e'.symm
      subst hee
      by_cases hs2 : 2 ≤ c.size
      · have hdp : distOf c p.2 ≠ c.size - 1 := htail hs2 p hpc
        have hde : distOf c p.2 = (e'.index - c.head) % c.size := by
          unfold distOf
          rw [h_e']
        rw [hde, hidx] at hdp
        rw [emod_sub_eq_wrap hsz hh0' hh1' hh0 hh1] at hdp
        rcases hh2 with h' | h' <;> revert hdp <;> split <;> omega
      · have hs1 : c.size = 1 := by omega
        have hht : h = t := by
          rcases ht2 with h' | h' <;> omega
        exact hsurv_t p hp e' h_e (hht ▸ hidx)
    have hn1 : (items1.map Prod.fst).Nodup := by
      rcases hitems1_cases with ⟨_, hc1⟩ | ⟨_, _, _, hc1⟩ | ⟨_, kd, _, _, hc1⟩ <;> rw [hc1]
      · exact hnd
      · exact hnd
      · exact (mapErase_keys_sublist _ _).nodup hnd
    have hhtoNat : h.toNat < c.ring.size := by omega
    rw [hred]
    refine ⟨hsz, ?_, hh0', hh1', ?_, ?_, ?_⟩
    · dsimp only
      rw [size_ringSet]
      exact hrs
    · dsimp only
      exact nodup_keys_mapInsert hn1 k c.entries.size
    · intro p hp
      dsimp only at hp ⊢
      rcases mem_mapInsert.mp hp with hnew | ⟨hold, hne⟩
      · subst hnew
        refine entryOK_iff.mpr ⟨⟨v, k, h⟩, ?_, rfl, hh0', hh1', ?_⟩
        · dsimp only
          exact get?_push_self c.entries ⟨v, k, h⟩
        · dsimp only
          exact ringGet_ringSet_self hhtoNat
      · obtain ⟨e, h_e, hkey', he0', he1', hpin'⟩ :=
          entryOK_iff.mp (hcross p (hsubset p hold))
        have hlt : p.2 < c.entries.size := lt_size_of_get?_some h_e
        refine entryOK_iff.mpr ⟨e, ?_, hkey', he0', he1', ?_⟩
        · dsimp only
          rw [get?_push_lt (by omega)]
          exact h_e
        · dsimp only
          rw [ringGet_ringSet_other ?_]
          · exact hpin'
          · have := hsurv_h p hold e h_e
            omega
    · intro h2 p hp
      dsimp only at hp h2 ⊢
      rcases mem_mapInsert.mp hp with hnew | ⟨hold, hne⟩
      · subst hnew
        have hd : distOf
            { c with head := h,
                     items := mapInsert items1 k c.entries.size,
                     ring := ringSet c.ring h (some c.entries.size),
                     entries := c.entries.push ⟨v, k, h⟩ } c.entries.size = 0 := by
          unfold distOf
          dsimp only
          rw [get?_push_self c.entries ⟨v, k, h⟩]
          dsimp only
          rw [sub_self, Int.zero_emod]
        rw [hd]
        omega
      · obtain ⟨e, h_e, hkey', he0', he1', hpin'⟩ :=
          entryOK_iff.mp (hcross p (hsubset p hold))
        have hlt : p.2 < c.entries.size := lt_size_of_get?_some h_e
        have hd : distOf
            { c with head := h,
                     items := mapInsert items1 k c.entries.size,
                     ring := ringSet c.ring h (some c.entries.size),
                     entries := c.entries.push ⟨v, k, h⟩ } p.2 =
            (e.index - h) % c.size := by
          unfold distOf
          dsimp only
          rw [get?_push_lt (by omega), h_e]
        rw [hd]
        have hnt := hsurv_t p hold e h_e
        have hnh := hsurv_h p hold e h_e
        rw [emod_sub_eq_wrap hsz he0' he1' hh0' hh1']
        rcases ht2 with h' | h' <;> split <;> omega

/-- The state returned by `Get` is the promoted state on a hit and the
unchanged state on a miss. -/
theorem Get_state {K V : Type} [DecidableEq K] (c : LRU K V) (k : K) :
    (Get c k).2 = match mapLookup c.items k with
      | some eid => promote c eid
      | none => c := by
  unfold Get
  cases hlk : mapLookup c.items k with
  | none => rfl
  | some eid =>
    dsimp only
    cases (promote c eid).entries.get? eid <;> rfl

/-- The state returned by `Peek` is always the unchanged receiver. -/
theorem Peek_state {K V : Type} [DecidableEq K] (c : LRU K V) (k : K) :
    (Peek c k).2 = c := by
  unfold Peek
  cases mapLookup c.items k with
  | none => rfl
  | some eid =>
    dsimp only
    cases c.entries.get? eid <;> rfl

theorem wf_Get {K V : Type} [DecidableEq K] {c : LRU K V} (hwf : wf c) (k : K) :
    wf (Get c k).2 := by
  rw [Get_state]
  cases hlk : mapLookup c.items k with
  | none => exact hwf
  | some eid => exact (wf_promote hwf hlk).1

theorem wf_Remove {K V : Type} [DecidableEq K] {c : LRU K V} (hwf : wf c) (k : K) :
    wf (Remove c k).2 := by
  obtain ⟨hsz, hrs, hh0, hh1, hnd, hcross, htail⟩ := hwf
  cases hlk : mapLookup c.items k with
  | none =>
    have : (Remove c k).2 = c := by
      simp only [Remove, hlk]
    rw [this]
    exact ⟨hsz, hrs, hh0, hh1, hnd, hcross, htail⟩
  | some eid =>
    have hmem : (k, eid) ∈ c.items := mapLookup_mem hlk
    obtain ⟨ent, h_ent, hkey, hc0, hc1, hpin⟩ := entryOK_iff.mp (hcross (k, eid) hmem)
    dsimp only at h_ent hkey hpin
    have hred : (Remove c k).2 =
        { c with items := mapErase c.items k,
                 ring := ringSet c.ring ent.index none } := by
      simp only [Remove, hlk, h_ent]
    rw [hred]
    refine ⟨hsz, ?_, hh0, hh1, ?_, ?_, ?_⟩
    · dsimp only
      rw [size_ringSet]
      exact hrs
    · exact (mapErase_keys_sublist _ _).nodup hnd
    · intro p hp
      dsimp only at hp ⊢
      obtain ⟨hpc, hpk⟩ := mem_mapErase.mp hp
      obtain ⟨e, h_e, hkey', he0', he1', hpin'⟩ := entryOK_iff.mp (hcross p hpc)
      have hidx : e.index.toNat ≠ ent.index.toNat := by
        intro hc
        rw [ringGet_congr hc, hpin] at hpin'
        have hpe : p.2 = eid := (Option.some.inj hpin').symm
        rw [hpe, h_ent] at h_e
        have : ent = e := Option.some.inj h_e
        rw [← this, hkey] at hkey'
        exact hpk hkey'.symm
      refine entryOK_iff.mpr ⟨e, h_e, hkey', he0', he1', ?_⟩
      dsimp only
      rw [ringGet_ringSet_other hidx]
      exact hpin'
    · intro h2 p hp
      dsimp only at hp h2 ⊢
      obtain ⟨hpc, hpk⟩ := mem_mapErase.mp hp
      have hd : distOf { c with items := mapErase c.items k,
                                ring := ringSet c.ring ent.index none } p.2 =
          distOf c p.2 := by
        unfold distOf
        dsimp only
      rw [hd]
      exact htail h2 p hpc

theorem wf_Purge {K V : Type} [DecidableEq K] {c : LRU K V} (hwf : wf c) :
    wf (Purge c) := by
  obtain ⟨hsz, hrs, hh0, hh1, hnd, hcross, htail⟩ := hwf
  refine ⟨hsz, ?_, le_refl 0, hsz, List.nodup_nil, ?_, ?_⟩
  · dsimp only [Purge]
    rw [Array.size_mkArray]
  · intro p hp
    exact absurd hp (List.not_mem_nil p)
  · intro h2 p hp
    exact absurd hp (List.not_mem_nil p)

theorem wf_ContainsOrAdd {K V : Type} [DecidableEq K] {c : LRU K V} (hwf : wf c)
    (k : K) (v : V) : wf (ContainsOrAdd c k v).2 := by
  unfold ContainsOrAdd
  by_cases hc : (Contains c k).1
  · rw [if_pos hc]
    exact hwf
  · rw [if_neg hc]
    exact wf_Add hwf k v

theorem wf_mkLRU {K V : Type} [DecidableEq K] {n : Int} (hn : 0 < n) :
    wf (mkLRU K V n) := by
  refine ⟨hn, ?_, le_refl 0, hn, List.nodup_nil, ?_, ?_⟩
  · dsimp only [mkLRU]
    rw [Array.size_mkArray]
  · intro p hp
    exact absurd hp (List.not_mem_nil p)
  · intro h2 p hp
    exact absurd hp (List.not_mem_nil p)

/-- States reachable from a successful construction by any sequence of the
cache's operations. -/
inductive Reachable {K V : Type} [DecidableEq K] : LRU K V → Prop where
  | init : ∀ (n : Int) (c : LRU K V), NewUnsynched K V n = Except.ok c → Reachable c
  | add : ∀ c k v, Reachable c → Reachable (Add c k v).2
  | get : ∀ c k, Reachable c → Reachable (Get c k).2
  | peek : ∀ c k, Reachable c → Reachable (Peek c k).2
  | containsStep : ∀ c k, Reachable c → Reachable (Contains c k).2
  | containsOrAdd : ∀ c k v, Reachable c → Reachable (ContainsOrAdd c k v).2
  | remove : ∀ c k, Reachable c → Reachable (Remove c k).2
  | purge : ∀ c, Reachable c → Reachable (Purge c)

theorem ok_NewUnsynched {K V : Type} [DecidableEq K] {n : Int} {c : LRU K V}
    (h : NewUnsynched K V n = Except.ok c) : 0 < n ∧ c = mkLRU K V n := by
  unfold NewUnsynched at h
  split at h
  · exact absurd h (by simp)
  · rename_i hn
    exact ⟨by omega, (Except.ok.inj h).symm⟩

/-- Every reachable state is well-formed. -/
theorem wf_Reachable {K V : Type} [DecidableEq K] {c : LRU K V}
    (h : Reachable c) : wf c := by
  induction h with
  | init n c hok =>
    obtain ⟨hn, hc⟩ := ok_NewUnsynched hok
    rw [hc]
    exact wf_mkLRU hn
  | add c k v _ ih => exact wf_Add ih k v
  | get c k _ ih => exact wf_Get ih k
  | peek c k _ ih => exact (Peek_state c k).symm ▸ ih
  | containsStep c k _ ih => exact ih
  | containsOrAdd c k v _ ih => exact wf_ContainsOrAdd ih k v
  | remove c k _ ih => exact wf_Remove ih k
  | purge c _ ih => exact wf_Purge ih

/-- Ring slot of the arena entry `eid`, as an array index. -/
def slotOf {K V : Type} (c : LRU K V) (eid : Nat) : Nat :=
  match c.entries.get? eid with
  | some e => e.index.toNat
  | none => 0

theorem wf_slots_nodup {K V : Type} [DecidableEq K] {c : LRU K V} (hwf : wf c) :
    (c.items.map (fun p => slotOf c p.2)).Nodup ∧
    ∀ p ∈ c.items, slotOf c p.2 < c.size.toNat := by
  obtain ⟨hsz, hrs, hh0, hh1, hnd, hcross, htail⟩ := hwf
  constructor
  · refine List.Nodup.map_on ?_ (List.Nodup.of_map Prod.fst hnd)
    intro x hx y hy hxy
    obtain ⟨ex, h_ex, hkx, hx0, hx1, hpx⟩ := entryOK_iff.mp (hcross x hx)
    obtain ⟨ey, h_ey, hky, hy0, hy1, hpy⟩ := entryOK_iff.mp (hcross y hy)
    have hsx : slotOf c x.2 = ex.index.toNat := by
      unfold slotOf
      rw [h_ex]
    have hsy : slotOf c y.2 = ey.index.toNat := by
      unfold slotOf
      rw [h_ey]
    rw [hsx, hsy] at hxy
    have h2 : x.2 = y.2 := by
      rw [ringGet_congr hxy, hpy] at hpx
      exact (Option.some.inj hpx).symm
    have h1 : x.1 = y.1 := by
      rw [h2, h_ey] at h_ex
      have : ey = ex := Option.some.inj h_ex
      rw [← hkx, ← hky, this]
    obtain ⟨x1, x2⟩ := x
    obtain ⟨y1, y2⟩ := y
    simp only [Prod.mk.injEq]
    exact ⟨h1, h2⟩
  · intro p hp
    obtain ⟨e, h_e, hk, h0, h1, hpin⟩ := entryOK_iff.mp (hcross p hp)
    have hs : slotOf c p.2 = e.index.toNat := by
      unfold slotOf
      rw [h_e]
    omega

theorem nodup_length_le {l : List Nat} (hnd : l.Nodup) {n : Nat}
    (hlt : ∀ x ∈ l, x < n) : l.length ≤ n := by
  have h1 : l.toFinset ⊆ Finset.range n := by
    intro x hx
    exact Finset.mem_range.mpr (hlt x (List.mem_toFinset.mp hx))
  have h2 := Finset.card_le_card h1
  rwa [List.toFinset_card_of_nodup hnd, Finset.card_range] at h2

theorem nodup_length_lt {l : List Nat} (hnd : l.Nodup) {n t : Nat} (ht : t < n)
    (hlt : ∀ x ∈ l, x < n) (hne : ∀ x ∈ l, x ≠ t) : l.length < n := by
  have h1 : l.toFinset ⊆ (Finset.range n).erase t := by
    intro x hx
    have hm := List.mem_toFinset.mp hx
    exact Finset.mem_erase.mpr ⟨hne x hm, Finset.mem_range.mpr (hlt x hm)⟩
  have h2 := Finset.card_le_card h1
  rw [List.toFinset_card_of_nodup hnd,
    Finset.card_erase_of_mem (Finset.mem_range.mpr ht), Finset.card_range] at h2
  omega

/-- A well-formed cache never indexes more keys than it has ring slots. -/
theorem wf_len_le {K V : Type} [DecidableEq K] {c : LRU K V} (hwf : wf c) :
    (Len c : Int) ≤ c.size := by
  obtain ⟨hmap, hbound⟩ := wf_slots_nodup hwf
  obtain ⟨hsz, _, _, _, _, _, _⟩ := hwf
  have hlen : Len c = (c.items.map (fun p => slotOf c p.2)).length := by
    unfold Len
    rw [List.length_map]
  have := nodup_length_le hmap (by
    intro x hx
    obtain ⟨p, hp, hpx⟩ := List.mem_map.mp hx
    exact hpx ▸ hbound p hp)
  rw [hlen]
  omega

/-- With capacity at least two, a well-formed cache always has strictly
fewer keys than capacity: the slot behind the head is never live. -/
theorem wf_len_lt {K V : Type} [DecidableEq K] {c : LRU K V} (hwf : wf c)
    (h2 : 2 ≤ c.size) : (Len c : Int) < c.size := by
  obtain ⟨hmap, hbound⟩ := wf_slots_nodup hwf
  obtain ⟨hsz, hrs, hh0, hh1, hnd, hcross, htail⟩ := hwf
  have hw0 : 0 ≤ (c.head - 1) % c.size := Int.emod_nonneg _ (by omega)
  have hw1 : (c.head - 1) % c.size < c.size := Int.emod_lt_of_pos _ hsz
  have hwe : (c.head - 1) % c.size = c.head - 1 ∨
      (c.head - 1) % c.size = c.head - 1 + c.size := by
    rw [← wrap_eq_emod hsz (le_of_lt (by omega)) (by omega)]
    split
    · exact Or.inr rfl
    · exact Or.inl rfl
  have hw : ((c.head - 1) % c.size - c.head) % c.size = c.size - 1 := by
    rw [emod_sub_eq_wrap hsz hw0 hw1 hh0 hh1]
    rcases hwe with h' | h' <;> split <;> omega
  have hlen : Len c = (c.items.map (fun p => slotOf c p.2)).length := by
    unfold Len
    rw [List.length_map]
  have hne : ∀ x ∈ c.items.map (fun p => slotOf c p.2),
      x ≠ ((c.head - 1) % c.size).toNat := by
    intro x hx hxt
    obtain ⟨p, hp, hpx⟩ := List.mem_map.mp hx
    obtain ⟨e, h_e, hk, h0, h1, hpin⟩ := entryOK_iff.mp (hcross p hp)
    have hs : slotOf c p.2 = e.index.toNat := by
      unfold slotOf
      rw [h_e]
    have hei : e.index = (c.head - 1) % c.size := by omega
    have hd : distOf c p.2 = c.size - 1 := by
      unfold distOf
      rw [h_e]
      show (e.index - c.head) % c.size = c.size - 1
      rw [hei]
      exact hw
    exact htail h2 p hp hd
  have hts : ((c.head - 1) % c.size).toNat < c.size.toNat := by omega
  have := nodup_length_lt hmap hts (by
    intro x hx
    obtain ⟨p, hp, hpx⟩ := List.mem_map.mp hx
    exact hpx ▸ hbound p hp) hne
  rw [hlen]
  omega

theorem promote_size_eq {K V : Type} (c : LRU K V) (eid : Nat) :
    (promote c eid).size = c.size := by
  unfold promote
  cases c.entries.get? eid <;> rfl

theorem Add_size {K V : Type} [DecidableEq K] (c : LRU K V) (k : K) (v : V) :
    (Add c k v).2.size = c.size := by
  unfold Add
  cases mapLookup c.items k with
  | none => rfl
  | some eid =>
    dsimp only
    exact promote_size_eq c eid

theorem addAll_size {K V : Type} [DecidableEq K] (c : LRU K V) (ps : List (K × V)) :
    (addAll c ps).size = c.size := by
  induction ps generalizing c with
  | nil => rfl
  | cons p rest ih =>
    show (addAll (Add c p.1 p.2).2 rest).size = c.size
    rw [ih, Add_size]

theorem Reachable_addAll {K V : Type} [DecidableEq K] {c : LRU K V}
    (h : Reachable c) (ps : List (K × V)) : Reachable (addAll c ps) := by
  induction ps generalizing c with
  | nil => exact h
  | cons p rest ih => exact ih (Reachable.add c p.1 p.2 h)

/-- One promoting lookup step: on a hit, the state is the promoted state,
the key is still indexed at the same arena id, well-formedness is kept, and
the entry's distance from the head is halved (floor division). -/
theorem get_step {K V : Type} [DecidableEq K] {c : LRU K V} {k : K} {eid : Nat}
    (hwf : wf c) (hl : mapLookup c.items k = some eid) :
    wf (Get c k).2 ∧ mapLookup (Get c k).2.items k = some eid ∧
    distOf (Get c k).2 eid = distOf c eid / 2 := by
  have h := wf_promote hwf hl
  have hs : (Get c k).2 = promote c eid := by
    rw [Get_state, hl]
  refine ⟨hs ▸ h.1, ?_, hs ▸ h.2.2.2.2.2⟩
  rw [hs, h.2.1]
  exact hl

/-- A shared concrete state: capacity 5 after inserting keys 1, 2, 3 (key 1
now sits at ring distance 2 from the head cursor). -/
def cacheCap5 : LRU Nat Nat := addAll (mkLRU Nat Nat 5) [(1, 10), (2, 20), (3, 30)]

/-- C1 — counterexample.  On a freshly constructed cache of capacity 2 the
very first `add` happens while the cache is still filling (`len() = 0 < 2`),
yet it returns `true`, not `false` as the claim states. -/
theorem add_fresh_returns_true_counterexample :
    Len (mkLRU Nat Nat 2) = 0 ∧ (Add (mkLRU Nat Nat 2) 1 10).1 = true := by
  decide

/-- C1 — amended.  `Add` returns `false` exactly when the key is already
present (an update), and returns `true` for every absent key — on every
fresh insertion, even while the ring is still filling below capacity,
because the source treats the ring as always being at capacity. -/
theorem add_eviction_flag {K V : Type} [DecidableEq K] (c : LRU K V) (k : K) (v : V) :
    (Add c k v).1 = (mapLookup c.items k).isNone := by
  unfold Add
  cases mapLookup c.items k <;> rfl

/-- C2 — evaluation of the code at the failing inputs.  Capacity 2 with
adds of keys 1, 2, 3: the cache ends with `len() = 1`, holding only key 3 —
the claim (and the spec scenario) expects `len() = 2` with keys 2 and 3
resident.  Capacity 128 with keys 0..255: `len()` ends at 127, not 128 as
the README example asserts. -/
theorem add_sequence_failing_input :
    Len (addAll (mkLRU Nat Nat 2) [(1, 10), (2, 20), (3, 30)]) = 1 ∧
    (Contains (addAll (mkLRU Nat Nat 2) [(1, 10), (2, 20), (3, 30)]) 1).1 = false ∧
    (Contains (addAll (mkLRU Nat Nat 2) [(1, 10), (2, 20), (3, 30)]) 2).1 = false ∧
    (Contains (addAll (mkLRU Nat Nat 2) [(1, 10), (2, 20), (3, 30)]) 3).1 = true ∧
    Len (addAll (mkLRU Nat Nat 128) ((List.range 256).map (fun i => (i, 0)))) = 127 := by
  refine ⟨by decide, by decide, by decide, by decide, ?_⟩
  decide

/-- C3.  The synchronized wrapper's `ContainsOrAdd` (lruish.go:85) calls
itself instead of delegating to the wrapped engine, so it never produces a
result no matter how much fuel the recursion is given — while the engine's
`ContainsOrAdd` on the same fresh input terminates with `(false, true)`.
(Under the non-reentrant exclusive lock the real call also self-deadlocks
on re-acquisition.) -/
theorem synched_containsOrAdd_never_returns :
    (∀ (fuel : Nat) (c : LRU Nat Nat) (k v : Nat),
      SynchedContainsOrAdd fuel c k v = none) ∧
    (ContainsOrAdd (mkLRU Nat Nat 2) 1 10).1 = (false, true) := by
  constructor
  · intro fuel
    induction fuel with
    | zero => intro c k v; rfl
    | succ f ih => intro c k v; exact ih c k v
  · decide

/-- C6.  For every capacity, every freshly constructed cache and every
sequence of `add` calls with pairwise distinct keys, `len()` never exceeds
the capacity. -/
theorem len_le_capacity {K V : Type} [DecidableEq K] {n : Int} {c0 : LRU K V}
    (hok : NewUnsynched K V n = Except.ok c0) (ps : List (K × V))
    (hnd : (ps.map Prod.fst).Nodup) :
    (Len (addAll c0 ps) : Int) ≤ n := by
  obtain ⟨hn, hc⟩ := ok_NewUnsynched hok
  have hr : Reachable (addAll c0 ps) :=
    Reachable_addAll (Reachable.init n c0 hok) ps
  have hs : (addAll c0 ps).size = n := by
    rw [addAll_size, hc]
    rfl
  have := wf_len_le (wf_Reachable hr)
  rwa [hs] at this

/-- C6 — witness: three distinct keys into a capacity-2 cache leave at most
2 keys indexed. -/
theorem len_le_capacity_witness :
    NewUnsynched Nat Nat 2 = Except.ok (mkLRU Nat Nat 2) ∧
    (([(1, 10), (2, 20), (3, 30)] : List (Nat × Nat)).map Prod.fst).Nodup ∧
    (Len (addAll (mkLRU Nat Nat 2) [(1, 10), (2, 20), (3, 30)]) : Int) ≤ 2 :=
  ⟨newUnsynched_pos (by decide), by decide,
    len_le_capacity (newUnsynched_pos (by decide)) [(1, 10), (2, 20), (3, 30)]
      (by decide)⟩

/-- C7.  Every reachable state — i.e. after every sequence of add, get,
peek, contains, containsOrAdd, remove and purge calls from construction —
satisfies the cross-reference invariant: every key in the index maps to an
entry whose recorded slot is an in-range ring position holding exactly that
entry. -/
theorem cross_reference_invariant {K V : Type} [DecidableEq K] {c : LRU K V}
    (h : Reachable c) : ∀ p ∈ c.items, entryOK c p.1 p.2 = true :=
  (wf_Reachable h).2.2.2.2.2.1

/-- C7 — witness at the concrete reachable state `cacheCap5`. -/
theorem cross_reference_invariant_witness :
    Reachable cacheCap5 ∧ ∀ p ∈ cacheCap5.items, entryOK cacheCap5 p.1 p.2 = true := by
  have hr : Reachable cacheCap5 :=
    Reachable_addAll (Reachable.init 5 _ rfl) [(1, 10), (2, 20), (3, 30)]
  exact ⟨hr, cross_reference_invariant hr⟩

/-- C8.  `Peek` and `Contains` return the receiver unchanged — neither the
key index, nor the ring, nor the head cursor moves — so any subsequent
sequence of `add` calls produces exactly the same final state (hence the
same eviction victims) with or without the interleaved peeks/contains. -/
theorem peek_contains_no_side_effect {K V : Type} [DecidableEq K] (c : LRU K V)
    (k : K) (ps : List (K × V)) :
    (Peek c k).2 = c ∧ (Contains c k).2 = c ∧
    addAll (Peek c k).2 ps = addAll c ps ∧
    addAll (Contains c k).2 ps = addAll c ps := by
  refine ⟨Peek_state c k, rfl, ?_, rfl⟩
  rw [Peek_state]

/-- C10.  For every reachable state of a cache with capacity at least 2,
`len()` is strictly below the capacity: each insertion of a new key evicts
the live entry in the slot just behind the new head first, so the cache is
never logically full. -/
theorem len_strictly_below_capacity {K V : Type} [DecidableEq K] {c : LRU K V}
    (h : Reachable c) (h2 : 2 ≤ c.size) : (Len c : Int) < c.size :=
  wf_len_lt (wf_Reachable h) h2

/-- C10 — witness: after two adds into a capacity-2 cache, only one key is
indexed. -/
theorem len_strictly_below_capacity_witness :
    Reachable (addAll (mkLRU Nat Nat 2) [(1, 10), (2, 20)]) ∧
    2 ≤ (addAll (mkLRU Nat Nat 2) [(1, 10), (2, 20)]).size ∧
    (Len (addAll (mkLRU Nat Nat 2) [(1, 10), (2, 20)]) : Int) <
      (addAll (mkLRU Nat Nat 2) [(1, 10), (2, 20)]).size := by
  have hr : Reachable (addAll (mkLRU Nat Nat 2) [(1, 10), (2, 20)]) :=
    Reachable_addAll (Reachable.init 2 _ rfl) [(1, 10), (2, 20)]
  exact ⟨hr, by decide, len_strictly_below_capacity hr (by decide)⟩

/-- C4 — counterexample.  In `cacheCap5` key 1 is resident at distance 2
from the head cursor; the claim's `⌈log2 2⌉ = 1` consecutive gets leave it
at distance 1, not 0 (the bound fails exactly at powers of two). -/
theorem promotion_convergence_counterexample :
    mapLookup cacheCap5.items 1 = some 0 ∧
    distOf cacheCap5 0 = 2 ∧
    Nat.clog 2 2 = 1 ∧
    distOf (getN cacheCap5 1 (Nat.clog 2 2)) 0 = 1 := by
  refine ⟨by decide, by decide, ?_, ?_⟩
  · exact Nat.clog_eq_one (by omega) (by omega)
  · rw [Nat.clog_eq_one (by omega) (by omega)]
    decide

/-- C4 — amended.  An entry resident at distance `d > 0`, with no other
operations interleaved, reaches distance exactly 0 after `⌊log2 d⌋ + 1`
(equivalently `⌈log2 (d+1)⌉`) consecutive gets on its key; the claimed
`⌈log2 d⌉` is one get short whenever `d` is a power of two. -/
theorem promotion_convergence (d : Nat) : ∀ {K V : Type} [DecidableEq K]
    {c : LRU K V} (k : K) (eid : Nat), wf c → mapLookup c.items k = some eid →
    distOf c eid = (d : Int) → 0 < d →
    distOf (getN c k (Nat.log2 d + 1)) eid = 0 := by
  induction d using Nat.strong_induction_on with
  | _ d ih =>
    intro K V _ c k eid hwf hl hd hpos
    obtain ⟨hwf', hl', hdist'⟩ := get_step hwf hl
    by_cases h1 : d = 1
    · subst h1
      have hl2 : Nat.log2 1 = 0 := by norm_num [Nat.log2]
      rw [hl2]
      have hone : getN c k (0 + 1) = (Get c k).2 := rfl
      rw [hone, hdist', hd]
      decide
    · have h2 : 2 ≤ d := by omega
      have hd' : distOf (Get c k).2 eid = ((d / 2 : Nat) : Int) := by
        rw [hdist', hd, Int.ofNat_ediv]
        norm_num
      have hlog : Nat.log2 d = Nat.log2 (d / 2) + 1 := by
        conv_lhs => rw [Nat.log2]
        rw [if_pos h2]
      rw [hlog]
      have hstep : getN c k (Nat.log2 (d / 2) + 1 + 1) =
          getN (Get c k).2 k (Nat.log2 (d / 2) + 1) := rfl
      rw [hstep]
      exact ih (d / 2) (by omega) k eid hwf' hl' hd' (by omega)

/-- C4 — witness: key 1 of `cacheCap5` at distance 2 reaches distance 0
after ⌊log2 2⌋ + 1 = 2 gets. -/
theorem promotion_convergence_witness :
    wf cacheCap5 ∧ mapLookup cacheCap5.items 1 = some 0 ∧
    distOf cacheCap5 0 = ((2 : Nat) : Int) ∧ 0 < 2 ∧
    distOf (getN cacheCap5 1 (Nat.log2 2 + 1)) 0 = 0 := by
  refine ⟨by decide, by decide, by decide, by decide, ?_⟩
  exact promotion_convergence 2 1 0 (by decide) (by decide) (by decide) (by decide)

/-- C5.  For a live entry at slot `cur = ent.index`, promotion computes
`position = (cur − head) mod capacity` and
`newSlot = (head + position / 2) mod capacity` with floor division, moves
the entry there (recording `newSlot` in its `index` field), re-points any
displaced entry to `cur`, swaps the two ring slots, and never removes
anything from the key index. -/
theorem promote_follows_spec {K V : Type} [DecidableEq K] {c : LRU K V}
    {eid : Nat} {ent : Elem K V}
    (h_ent : c.entries.get? eid = some ent)
    (hsize : 0 < c.size) (hring : c.ring.size = c.size.toNat)
    (hhead0 : 0 ≤ c.head) (hhead1 : c.head < c.size)
    (hcur0 : 0 ≤ ent.index) (hcur1 : ent.index < c.size)
    (hpin : ringGet c.ring ent.index = some eid) :
    (promote c eid).items = c.items ∧
    (promote c eid).entries.get? eid =
      some { ent with index := (c.head + ((ent.index - c.head) % c.size) / 2) % c.size } ∧
    ringGet (promote c eid).ring
      ((c.head + ((ent.index - c.head) % c.size) / 2) % c.size) = some eid ∧
    (((c.head + ((ent.index - c.head) % c.size) / 2) % c.size).toNat ≠ ent.index.toNat →
      ringGet (promote c eid).ring ent.index =
        ringGet c.ring ((c.head + ((ent.index - c.head) % c.size) / 2) % c.size)) ∧
    (∀ did,
      ringGet c.ring ((c.head + ((ent.index - c.head) % c.size) / 2) % c.size) = some did →
      did ≠ eid →
      (promote c eid).entries.get? did =
        (c.entries.get? did).map (fun e => { e with index := ent.index })) := by
  obtain ⟨p1, p2, p3, p4, p5, p6, p7, p8, p9, p10, p11⟩ :=
    promote_spec h_ent hsize hring hhead0 hhead1 hcur0 hcur1 hpin rfl
  exact ⟨p1, p6, p7, p9, p10⟩

/-- C5 — witness at `cacheCap5`, promoting key 1's entry (arena id 0, slot
4, head 2: position 2, new slot 3). -/
theorem promote_follows_spec_witness :
    cacheCap5.entries.get? 0 = some ⟨10, 1, 4⟩ ∧
    0 < cacheCap5.size ∧ cacheCap5.ring.size = cacheCap5.size.toNat ∧
    0 ≤ cacheCap5.head ∧ cacheCap5.head < cacheCap5.size ∧
    0 ≤ (⟨10, 1, 4⟩ : Elem Nat Nat).index ∧
    (⟨10, 1, 4⟩ : Elem Nat Nat).index < cacheCap5.size ∧
    ringGet cacheCap5.ring (⟨10, 1, 4⟩ : Elem Nat Nat).index = some 0 ∧
    (promote cacheCap5 0).items = cacheCap5.items ∧
    (promote cacheCap5 0).entries.get? 0 =
      some { (⟨10, 1, 4⟩ : Elem Nat Nat) with
             index := (cacheCap5.head +
               (((⟨10, 1, 4⟩ : Elem Nat Nat).index - cacheCap5.head) % cacheCap5.size) / 2) %
               cacheCap5.size } := by
  have h := promote_follows_spec
    (show cacheCap5.entries.get? 0 = some ⟨10, 1, 4⟩ by decide)
    (by decide) (by decide) (by decide) (by decide) (by decide) (by decide) (by decide)
  exact ⟨by decide, by decide, by decide, by decide, by decide, by decide, by decide,
    by decide, h.1, h.2.1⟩

/-- C9.  Construction fails exactly when the capacity is not positive, and
every other operation is total: on a missing key, get/peek return `none`
with the state unchanged, contains returns `false`, remove returns `false`
with the state unchanged, and containsOrAdd reports `found = false` and
behaves as `add` — never an error. -/
theorem error_taxonomy (K V : Type) [DecidableEq K] :
    (∀ n : Int, (∃ c : LRU K V, NewUnsynched K V n = Except.ok c) ↔ 0 < n) ∧
    (∀ n : Int, (∃ s : String, NewUnsynched K V n = Except.error s) ↔ n ≤ 0) ∧
    (∀ (c : LRU K V) (k : K) (v : V), mapLookup c.items k = none →
      Get c k = (none, c) ∧ Peek c k = (none, c) ∧ (Contains c k).1 = false ∧
      Remove c k = (false, c) ∧
      ContainsOrAdd c k v = ((false, (Add c k v).1), (Add c k v).2)) := by
  refine ⟨?_, ?_, ?_⟩
  · intro n
    constructor
    · rintro ⟨c, hc⟩
      exact (ok_NewUnsynched hc).1
    · intro hn
      exact ⟨mkLRU K V n, newUnsynched_pos hn⟩
  · intro n
    constructor
    · rintro ⟨s, hs⟩
      by_contra hn
      rw [newUnsynched_pos (by omega)] at hs
      exact Except.noConfusion hs
    · intro hn
      refine ⟨"must provide a positive size", ?_⟩
      unfold NewUnsynched
      rw [if_pos hn]
  · intro c k v hlk
    refine ⟨?_, ?_, ?_, ?_, ?_⟩
    · unfold Get
      rw [hlk]
    · unfold Peek
      rw [hlk]
    · unfold Contains
      rw [hlk]
      rfl
    · unfold Remove
      rw [hlk]
    · unfold ContainsOrAdd Contains
      rw [hlk]
      rfl

/-- C9 — witness: capacity 2 constructs, capacity 0 errors, and lookups of
the absent key 5 report not-found without failing. -/
theorem error_taxonomy_witness :
    (∃ c : LRU Nat Nat, NewUnsynched Nat Nat 2 = Except.ok c) ∧
    (∃ s : String, NewUnsynched Nat Nat 0 = Except.error s) ∧
    mapLookup (mkLRU Nat Nat 2).items 5 = none ∧
    Get (mkLRU Nat Nat 2) 5 = (none, mkLRU Nat Nat 2) ∧
    (Contains (mkLRU Nat Nat 2) 5).1 = false := by
  have h := error_taxonomy Nat Nat
  refine ⟨(h.1 2).mpr (by decide), (h.2.1 0).mpr (by decide), by decide, ?_, ?_⟩
  · exact (h.2.2 (mkLRU Nat Nat 2) 5 0 (by decide)).1
  · exact (h.2.2 (mkLRU Nat Nat 2) 5 0 (by decide)).2.2.1

end Lruish
